import Mathlib

/-!
Shallow embedding of the core annotation algorithm of
`src/process_fanuc_ls.py` (function `process_ls_file`): a two-pass,
line-oriented rewriter for Fanuc `.ls` robot programs.

Lines are modelled as `List Char` (the file is decoded as latin-1, one
`Char` per byte).  The Python regular expressions used by the source are
embedded as deterministic scanners: each regex used by the program is
simple enough that Python's leftmost-search plus greedy backtracking
collapses to a deterministic maximal-munch scan, except for the `.*` in
the comment pattern, whose greedy backtracking is modelled explicitly
(`starDash` tries the rightmost stop first and never crosses a newline).

The unguarded `re.search(...).group(1)` at line 234 of the source can in
principle raise `AttributeError`; the embedding models this by returning
`Option`: `none` is the crash.  Totality is then a theorem.
-/

namespace FanucLs

/-- A text line: one character per latin-1 byte. -/
abbrev Line := List Char

/-- The `point_modifications` table: pairs (point index, weld-spot id),
in Python-dict insertion order (updates keep the original position). -/
abbrev PM := List (Line × Line)

/-- Python's whitespace class (`\s`, and `str.strip`) restricted to the
latin-1 range of characters that can occur after latin-1 decoding. -/
def pySpace (c : Char) : Bool :=
  c = ' ' || c = '\t' || c = '\n' || c = '\r' || c = '\x0b' || c = '\x0c' ||
  c = '\x1c' || c = '\x1d' || c = '\x1e' || c = '\x1f' || c = '\x85' || c = '\xa0'

/-- Maximal munch for `\s*`. -/
def dropSpaces (l : Line) : Line := l.dropWhile pySpace

/-- Python's `str.strip()`: drop whitespace at both ends. -/
def pyStrip (l : Line) : Line :=
  ((dropSpaces l).reverse.dropWhile pySpace).reverse

/-- Python's `str.startswith('/')` test. -/
def slashStart : Line → Bool
  | '/' :: _ => true
  | _ => false

/-- The `/MN` section marker. -/
def strMN : Line := ['/', 'M', 'N']

/-- The `/POS` section marker. -/
def strPOS : Line := ['/', 'P', 'O', 'S']

/-- Match one literal character at the head; return the rest. -/
def expectChar (x : Char) (l : Line) : Option Line :=
  match l with
  | [] => none
  | c :: r => if c = x then some r else none

/-- Match `\s*` then one literal character; return the rest.  (For every
regex below, a shorter match of `\s*` leaves a whitespace character where
the literal is expected, so greedy `\s*` is equivalent to maximal munch.) -/
def expectSpacesChar (x : Char) (l : Line) : Option Line :=
  expectChar x (dropSpaces l)

theorem dropWhile_length_le (p : Char → Bool) (l : List Char) :
    (l.dropWhile p).length ≤ l.length := by
  induction l with
  | nil => simp
  | cons c t ih =>
    by_cases h : p c <;> simp [List.dropWhile_cons, h] <;> omega

theorem dropSpaces_length_le (l : Line) : (dropSpaces l).length ≤ l.length :=
  dropWhile_length_le pySpace l

theorem expectChar_length {x : Char} {l r : Line} (h : expectChar x l = some r) :
    r.length < l.length := by
  match l with
  | [] => simp [expectChar] at h
  | c :: t =>
    simp only [expectChar] at h
    split at h
    · cases h; simp
    · simp at h

theorem expectSpacesChar_length {x : Char} {l r : Line}
    (h : expectSpacesChar x l = some r) : r.length < l.length :=
  lt_of_lt_of_le (expectChar_length h) (dropSpaces_length_le l)

/-! ### The comment-line pattern `\d+\s*:\s*!\s*T.*-(\d+)\s*;` -/

/-- Match `-(\d+)\s*;` at the head; return the captured digit run
(`\d+` is greedy and cannot usefully backtrack before `\s*;`). -/
def dashTail (s : Line) : Option Line :=
  match expectChar '-' s with
  | none => none
  | some r =>
    let ds := r.takeWhile Char.isDigit
    if ds = [] then none
    else
      match expectSpacesChar ';' (r.dropWhile Char.isDigit) with
      | some _ => some ds
      | none => none

/-- Greedy `.*-(\d+)\s*;`: `.*` consumes as much as possible (never a
newline) and backtracks right-to-left until `dashTail` matches. -/
def starDash : Line → Option Line
  | [] => none
  | c :: r =>
    if c = '\n' then dashTail (c :: r)
    else
      match starDash r with
      | some ds => some ds
      | none => dashTail (c :: r)

/-- Match the full comment pattern anchored at the head of the string. -/
def commentAt (s : Line) : Option Line :=
  if s.takeWhile Char.isDigit = [] then none
  else
    match expectSpacesChar ':' (s.dropWhile Char.isDigit) with
    | none => none
    | some r2 =>
      match expectSpacesChar '!' r2 with
      | none => none
      | some r3 =>
        match expectSpacesChar 'T' r3 with
        | none => none
        | some r4 => starDash r4

/-- `re.search` for the comment pattern: leftmost matching start wins. -/
def searchComment : Line → Option Line
  | [] => none
  | c :: r =>
    match commentAt (c :: r) with
    | some ds => some ds
    | none => searchComment r

/-! ### The movement pattern `(\d+\s*:)?\s*([LJ])\s+P\s*\[\s*(\d+)\s*\]` -/

/-- Match `\s*([LJ])\s+P\s*\[\s*(\d+)\s*\]` at the head; return group 3. -/
def movementCore (s : Line) : Option Line :=
  match dropSpaces s with
  | [] => none
  | c :: r2 =>
    if c = 'L' || c = 'J' then
      match r2 with
      | [] => none
      | d :: r3 =>
        if pySpace d then
          match expectSpacesChar 'P' r3 with
          | none => none
          | some r5 =>
            match expectSpacesChar '[' r5 with
            | none => none
            | some r6 =>
              if (dropSpaces r6).takeWhile Char.isDigit = [] then none
              else
                match expectSpacesChar ']' ((dropSpaces r6).dropWhile Char.isDigit) with
                | some _ => some ((dropSpaces r6).takeWhile Char.isDigit)
                | none => none
        else none
    else none

/-- Match the movement pattern at the head: the optional label group
`(\d+\s*:)?` is tried first (greedy), then dropped on failure. -/
def movementAt (s : Line) : Option Line :=
  if s.takeWhile Char.isDigit = [] then movementCore s
  else
    match expectSpacesChar ':' (s.dropWhile Char.isDigit) with
    | some r2 =>
      match movementCore r2 with
      | some ds => some ds
      | none => movementCore s
    | none => movementCore s

/-- `re.search` for the movement pattern; returns group 3 (point index). -/
def searchMovement : Line → Option Line
  | [] => none
  | c :: r =>
    match movementAt (c :: r) with
    | some ds => some ds
    | none => searchMovement r

/-! ### The bracket pattern `P\s*\[([^\]]+)\]` -/

/-- Match `P\s*\[([^\]]+)\]` at the head; return group 1: the maximal
nonempty run of non-`]` characters, which must be closed by `]`. -/
def bracketAt (s : Line) : Option Line :=
  match expectChar 'P' s with
  | none => none
  | some r =>
    match expectSpacesChar '[' r with
    | none => none
    | some r2 =>
      if r2.takeWhile (fun c => c != ']') = [] then none
      else
        match r2.dropWhile (fun c => c != ']') with
        | [] => none
        | _ :: _ => some (r2.takeWhile (fun c => c != ']'))

/-- `re.search` for the bracket pattern: first (leftmost) `P[...]`. -/
def searchBracket : Line → Option Line
  | [] => none
  | c :: r =>
    match bracketAt (c :: r) with
    | some ds => some ds
    | none => searchBracket r

/-! ### The substitutions of `re.sub` -/

/-- Match `P\s*\[\s*<num>\s*\]` at the head; return the rest after the
match (`num` is a literal digit string interpolated into the pattern). -/
def mnPatAt (num : Line) (s : Line) : Option Line :=
  match expectChar 'P' s with
  | none => none
  | some r =>
    match expectSpacesChar '[' r with
    | none => none
    | some r2 =>
      if (dropSpaces r2).take num.length = num then
        expectSpacesChar ']' ((dropSpaces r2).drop num.length)
      else none

/-- Match `P\s*\[\s*<num>\s*\]\s*\{` at the head; return the rest after
the `{` (which the source captures as `(\{)` and restores via `\1`). -/
def posPatAt (num : Line) (s : Line) : Option Line :=
  match mnPatAt num s with
  | none => none
  | some r5 => expectSpacesChar '\x7b' r5

/-- Replacement text `P[<num>:<id>]` of the `/MN` substitution. -/
def mnRepl (num id : Line) : Line :=
  'P' :: '[' :: (num ++ ':' :: id ++ [']'])

/-- Replacement text `P[<num>:"<id>"]{` of the `/POS` substitution. -/
def posRepl (num id : Line) : Line :=
  'P' :: '[' :: (num ++ ':' :: '"' :: id ++ ['"', ']', '\x7b'])

theorem mnPatAt_length_lt {num s r : Line} (h : mnPatAt num s = some r) :
    r.length < s.length := by
  unfold mnPatAt at h
  split at h
  · simp at h
  rename_i r1 h1
  split at h
  · simp at h
  rename_i r2 h2
  split at h
  · have h3 := expectSpacesChar_length h
    have h5 : ((dropSpaces r2).drop num.length).length ≤ (dropSpaces r2).length := by
      simp
    have h6 := dropSpaces_length_le r2
    have h7 := expectSpacesChar_length h2
    have h8 := expectChar_length h1
    omega
  · simp at h

theorem posPatAt_length_lt {num s r : Line} (h : posPatAt num s = some r) :
    r.length < s.length := by
  unfold posPatAt at h
  split at h
  · simp at h
  rename_i r5 h1
  exact lt_trans (expectSpacesChar_length h) (mnPatAt_length_lt h1)

/-- Fuel-based worker for `subMN` (structural recursion on the fuel so
the kernel can evaluate it; each step consumes at least one character,
so fuel equal to the line length always suffices). -/
def subMNF (num id : Line) : Nat → Line → Line
  | _, [] => []
  | 0, l => l
  | fuel + 1, c :: r =>
    match mnPatAt num (c :: r) with
    | some rest => mnRepl num id ++ subMNF num id fuel rest
    | none => c :: subMNF num id fuel r

/-- `re.sub(r'P\s*\[\s*num\s*\]', f'P[num:id]', line)`: replace every
non-overlapping occurrence, scanning left to right. -/
def subMN (num id l : Line) : Line := subMNF num id l.length l

/-- Fuel-based worker for `subPOS`. -/
def subPOSF (num id : Line) : Nat → Line → Line
  | _, [] => []
  | 0, l => l
  | fuel + 1, c :: r =>
    match posPatAt num (c :: r) with
    | some rest => posRepl num id ++ subPOSF num id fuel rest
    | none => c :: subPOSF num id fuel r

/-- `re.sub(r'P\s*\[\s*num\s*\]\s*(\{)', f'P[num:"id"]\1', line)`. -/
def subPOS (num id l : Line) : Line := subPOSF num id l.length l

theorem subMNF_fuel (num id : Line) :
    ∀ f1 : Nat, ∀ f2 : Nat, ∀ l : Line, l.length ≤ f1 → l.length ≤ f2 →
      subMNF num id f1 l = subMNF num id f2 l := by
  intro f1
  induction f1 with
  | zero =>
    intro f2 l h1 _
    have : l = [] := List.length_eq_zero.mp (Nat.le_zero.mp h1)
    subst this
    cases f2 <;> rfl
  | succ g1 ih =>
    intro f2 l h1 h2
    match l with
    | [] => cases f2 <;> rfl
    | c :: r =>
      match f2 with
      | 0 => simp at h2
      | g2 + 1 =>
        cases hm : mnPatAt num (c :: r) with
        | some rest =>
          have hlt := mnPatAt_length_lt hm
          simp only [List.length_cons] at h1 h2 hlt
          simp only [subMNF, hm]
          rw [ih g2 rest (by omega) (by omega)]
        | none =>
          simp only [List.length_cons] at h1 h2
          simp only [subMNF, hm]
          rw [ih g2 r (by omega) (by omega)]

theorem subPOSF_fuel (num id : Line) :
    ∀ f1 : Nat, ∀ f2 : Nat, ∀ l : Line, l.length ≤ f1 → l.length ≤ f2 →
      subPOSF num id f1 l = subPOSF num id f2 l := by
  intro f1
  induction f1 with
  | zero =>
    intro f2 l h1 _
    have : l = [] := List.length_eq_zero.mp (Nat.le_zero.mp h1)
    subst this
    cases f2 <;> rfl
  | succ g1 ih =>
    intro f2 l h1 h2
    match l with
    | [] => cases f2 <;> rfl
    | c :: r =>
      match f2 with
      | 0 => simp at h2
      | g2 + 1 =>
        cases hm : posPatAt num (c :: r) with
        | some rest =>
          have hlt := posPatAt_length_lt hm
          simp only [List.length_cons] at h1 h2 hlt
          simp only [subPOSF, hm]
          rw [ih g2 rest (by omega) (by omega)]
        | none =>
          simp only [List.length_cons] at h1 h2
          simp only [subPOSF, hm]
          rw [ih g2 r (by omega) (by omega)]

theorem subMN_nil (num id : Line) : subMN num id [] = [] := rfl

theorem subMN_cons_some {c : Char} {nums rest : Line} {r : Line} (id : Line)
    (h : mnPatAt nums (c :: r) = some rest) :
    subMN nums id (c :: r) = mnRepl nums id ++ subMN nums id rest := by
  show subMNF nums id (c :: r).length (c :: r) = _
  have hlt := mnPatAt_length_lt h
  simp only [List.length_cons, subMNF, h]
  rw [subMNF_fuel nums id r.length rest.length rest (by simpa using Nat.lt_succ_iff.mp hlt) (le_refl _)]
  rfl

theorem subMN_cons_none {nums : Line} {c : Char} {r : Line} (id : Line)
    (h : mnPatAt nums (c :: r) = none) :
    subMN nums id (c :: r) = c :: subMN nums id r := by
  show subMNF nums id (c :: r).length (c :: r) = _
  simp only [List.length_cons, subMNF, h]
  rfl

theorem subPOS_cons_some {c : Char} {nums rest : Line} {r : Line} (id : Line)
    (h : posPatAt nums (c :: r) = some rest) :
    subPOS nums id (c :: r) = posRepl nums id ++ subPOS nums id rest := by
  show subPOSF nums id (c :: r).length (c :: r) = _
  have hlt := posPatAt_length_lt h
  simp only [List.length_cons, subPOSF, h]
  rw [subPOSF_fuel nums id r.length rest.length rest (by simpa using Nat.lt_succ_iff.mp hlt) (le_refl _)]
  rfl

theorem subPOS_cons_none {nums : Line} {c : Char} {r : Line} (id : Line)
    (h : posPatAt nums (c :: r) = none) :
    subPOS nums id (c :: r) = c :: subPOS nums id r := by
  show subPOSF nums id (c :: r).length (c :: r) = _
  simp only [List.length_cons, subPOSF, h]
  rfl

/-- `re.search` (as a Boolean test) for `P\s*\[\s*<num>\s*\]\s*\{`. -/
def posSearch (num : Line) : Line → Bool
  | [] => false
  | c :: r => (posPatAt num (c :: r)).isSome || posSearch num r

/-! ### Pass 1: the `/MN` scan -/

/-- Python dict write `pm[k] = v`: update in place if the key exists
(keeping its insertion position), otherwise append. -/
def insertPM : PM → Line → Line → PM
  | [], k, v => [(k, v)]
  | p :: t, k, v => if p.1 = k then (k, v) :: t else p :: insertPM t k v

/-- Result of pass 1: emitted lines, the spot mapping, and the
`changes_mn` / `skipped_mn` counters. -/
structure MNOut where
  out : List Line
  pm : PM
  changes : Nat
  skipped : Nat
deriving Repr, DecidableEq

/-- The `while i < len(lines)` loop of `process_ls_file` (lines 204-259 of
the source).  `none` models the `AttributeError` that the unguarded
`re.search(r'P\s*\[([^\]]+)\]', next_line).group(1)` would raise. -/
def pass1 (inMN : Bool) (pm : PM) : List Line → Option MNOut
  | [] => some ⟨[], pm, 0, 0⟩
  | l :: rest =>
    if pyStrip l = strMN then
      (pass1 true pm rest).map fun o => ⟨l :: o.out, o.pm, o.changes, o.skipped⟩
    else
      let inMN' := inMN && !(slashStart (pyStrip l) && !(pyStrip l == strMN))
      if inMN' then
        match rest with
        | next :: rest2 =>
          match searchComment l with
          | some spot =>
            match searchMovement next with
            | some pnum =>
              match searchBracket next with
              | none => none
              | some content =>
                if ':' ∈ content then
                  (pass1 inMN' pm rest2).map fun o =>
                    ⟨l :: next :: o.out, o.pm, o.changes, o.skipped + 1⟩
                else
                  (pass1 inMN' (insertPM pm pnum spot) rest2).map fun o =>
                    ⟨l :: subMN pnum spot next :: o.out, o.pm, o.changes + 1, o.skipped⟩
            | none =>
              (pass1 inMN' pm (next :: rest2)).map fun o =>
                ⟨l :: o.out, o.pm, o.changes, o.skipped⟩
          | none =>
            (pass1 inMN' pm (next :: rest2)).map fun o =>
              ⟨l :: o.out, o.pm, o.changes, o.skipped⟩
        | [] =>
          (pass1 inMN' pm []).map fun o =>
            ⟨l :: o.out, o.pm, o.changes, o.skipped⟩
      else
        (pass1 inMN' pm rest).map fun o =>
          ⟨l :: o.out, o.pm, o.changes, o.skipped⟩

/-! ### Pass 2: the `/POS` scan -/

/-- The `':' in match_bracket.group(1)` guard of the `/POS` pass
(`if match_bracket and ':' in match_bracket.group(1)`). -/
def posSkip (l : Line) : Bool :=
  match searchBracket l with
  | some content => ':' ∈ content
  | none => false

/-- One iteration of the `for line in modified_lines` loop (lines 269-310
of the source): returns the new `in_pos_block` flag, the emitted line,
and whether `changes_pos` / `skipped_pos` were incremented. -/
def pass2step (pm : PM) (inPos : Bool) (l : Line) : Bool × Line × Bool × Bool :=
  if pyStrip l = strPOS then (true, l, false, false)
  else
    let inPos' := inPos && !(slashStart (pyStrip l) && !(pyStrip l == strPOS))
    if inPos' then
      match pm.find? (fun p => posSearch p.1 l) with
      | some p =>
        if posSkip l then (inPos', l, false, true)
        else (inPos', subPOS p.1 p.2 l, true, false)
      | none => (inPos', l, false, false)
    else (inPos', l, false, false)

/-- Result of pass 2: emitted lines and the `changes_pos` /
`skipped_pos` counters. -/
structure POSOut where
  out : List Line
  changes : Nat
  skipped : Nat
deriving Repr, DecidableEq

/-- The whole `/POS` loop, folding `pass2step` over the lines. -/
def pass2 (pm : PM) (inPos : Bool) : List Line → POSOut
  | [] => ⟨[], 0, 0⟩
  | l :: rest =>
    let s := pass2step pm inPos l
    let o := pass2 pm s.1 rest
    ⟨s.2.1 :: o.out, o.changes + (if s.2.2.1 then 1 else 0),
      o.skipped + (if s.2.2.2 then 1 else 0)⟩

/-! ### The whole annotator -/

/-- Everything `process_ls_file` computes on one file's lines: the
intermediate lines after pass 1, the spot mapping, the final lines, and
the four counters of the returned stats dict. -/
structure RunOut where
  modified_lines : List Line
  point_modifications : PM
  final_lines : List Line
  changes_mn : Nat
  changes_pos : Nat
  skipped_mn : Nat
  skipped_pos : Nat
deriving Repr, DecidableEq

/-- The core of `process_ls_file` (file I/O stripped): pass 1 over the
input lines, then pass 2 over its output, using its mapping. -/
def process_ls_file (lines : List Line) : Option RunOut :=
  (pass1 false [] lines).map fun o1 =>
    let o2 := pass2 o1.pm false o1.out
    ⟨o1.out, o1.pm, o2.out, o1.changes, o2.changes, o1.skipped, o2.skipped⟩

/-- Convenience: build a `Line` from a string literal. -/
def strL (s : String) : Line := s.data

/-! ### Helper lemmas: a movement match guarantees a bracket match -/

theorem expectChar_eq {x : Char} {l r : Line} (h : expectChar x l = some r) :
    l = x :: r := by
  match l with
  | [] => simp [expectChar] at h
  | c :: t =>
    simp only [expectChar] at h
    split at h
    · rename_i hc
      cases h
      subst hc
      rfl
    · simp at h

theorem mem_of_mem_dropSpaces {x : Char} {l : Line} (h : x ∈ dropSpaces l) :
    x ∈ l :=
  (List.dropWhile_suffix pySpace).subset h

theorem dropWhile_ne_nonempty {x : Char} {l : Line} (h : x ∈ l) :
    l.dropWhile (fun c => c != x) ≠ [] := by
  induction l with
  | nil => simp at h
  | cons c r ih =>
    by_cases hc : c = x
    · subst hc
      simp [List.dropWhile_cons]
    · have hx : x ∈ r := by
        rcases List.mem_cons.mp h with h1 | h1
        · exact absurd h1.symm hc
        · exact h1
      by_cases hcx : (c != x) = true
      · simpa [List.dropWhile_cons, hcx] using ih hx
      · simp only [List.dropWhile_cons, hcx]
        simp

theorem bracketAt_some_of_parts {r5 r6 : Line}
    (h6 : expectSpacesChar '[' r5 = some r6)
    (hne : (dropSpaces r6).takeWhile Char.isDigit ≠ [])
    (hcl : ∃ w, expectSpacesChar ']' ((dropSpaces r6).dropWhile Char.isDigit) = some w) :
    (bracketAt ('P' :: r5)).isSome := by
  obtain ⟨w, hw⟩ := hcl
  have hmem : (']' : Char) ∈ r6 := by
    have h1 : (']' : Char) ∈ dropSpaces ((dropSpaces r6).dropWhile Char.isDigit) := by
      rw [expectChar_eq hw]
      simp
    exact mem_of_mem_dropSpaces
      ((List.dropWhile_suffix Char.isDigit).subset (mem_of_mem_dropSpaces h1))
  have htake : r6.takeWhile (fun c => c != ']') ≠ [] := by
    cases r6 with
    | nil => simp [dropSpaces] at hne
    | cons e r7 =>
      have hene : e ≠ ']' := by
        by_cases hsp : pySpace e = true
        · intro he
          subst he
          simp [pySpace] at hsp
        · have hd : dropSpaces (e :: r7) = e :: r7 := by
            simp [dropSpaces, List.dropWhile_cons, hsp]
          rw [hd] at hne
          have hdig : Char.isDigit e = true := by
            by_contra hdig
            simp [List.takeWhile_cons, hdig] at hne
          intro he
          subst he
          exact absurd hdig (by decide)
      simp [List.takeWhile_cons, hene]
  have hdrop : r6.dropWhile (fun c => c != ']') ≠ [] := dropWhile_ne_nonempty hmem
  unfold bracketAt
  have hP : expectChar 'P' ('P' :: r5) = some r5 := by simp [expectChar]
  simp only [hP, h6]
  rw [if_neg htake]
  cases hd : r6.dropWhile (fun c => c != ']') with
  | nil => exact absurd hd hdrop
  | cons x xs => simp

theorem movementCore_bracket {s ds : Line} (h : movementCore s = some ds) :
    ∃ u, u <:+ s ∧ (bracketAt u).isSome := by
  unfold movementCore at h
  split at h
  · simp at h
  rename_i c r2 hds
  split at h
  swap
  · simp at h
  split at h
  · simp at h
  rename_i hLJ d r3
  split at h
  swap
  · simp at h
  split at h
  · simp at h
  rename_i hsp r5 h5
  split at h
  · simp at h
  rename_i r6 h6
  split at h
  · simp at h
  rename_i hne
  split at h
  swap
  · simp at h
  rename_i w h8
  refine ⟨'P' :: r5, ?_, ?_⟩
  · have e5 : dropSpaces r3 = 'P' :: r5 := expectChar_eq h5
    have s1 : 'P' :: r5 <:+ r3 := by
      rw [← e5]
      exact List.dropWhile_suffix pySpace
    have s2 : r3 <:+ d :: r3 := List.suffix_cons d r3
    have s3 : d :: r3 <:+ c :: (d :: r3) := List.suffix_cons c _
    have s4 : c :: (d :: r3) <:+ s := by
      rw [← hds]
      exact List.dropWhile_suffix pySpace
    exact s1.trans (s2.trans (s3.trans s4))
  · exact bracketAt_some_of_parts h6 hne ⟨w, h8⟩

theorem movementAt_bracket {s ds : Line} (h : movementAt s = some ds) :
    ∃ u, u <:+ s ∧ (bracketAt u).isSome := by
  unfold movementAt at h
  split at h
  · exact movementCore_bracket h
  · split at h
    · rename_i r2 h2
      split at h
      · rename_i ds2 hcore
        obtain ⟨u, hu, hb⟩ := movementCore_bracket hcore
        refine ⟨u, ?_, hb⟩
        have e2 : dropSpaces (s.dropWhile Char.isDigit) = ':' :: r2 := expectChar_eq h2
        have s1 : r2 <:+ ':' :: r2 := List.suffix_cons ':' r2
        have s2 : (':' :: r2) <:+ s.dropWhile Char.isDigit := by
          rw [← e2]
          exact List.dropWhile_suffix pySpace
        have s3 : s.dropWhile Char.isDigit <:+ s := List.dropWhile_suffix _
        exact hu.trans (s1.trans (s2.trans s3))
      · exact movementCore_bracket h
    · exact movementCore_bracket h

theorem searchMovement_movementAt {l ds : Line} (h : searchMovement l = some ds) :
    ∃ v, v <:+ l ∧ movementAt v = some ds := by
  induction l with
  | nil => simp [searchMovement] at h
  | cons c r ih =>
    unfold searchMovement at h
    split at h
    · rename_i ds2 hm
      cases h
      exact ⟨c :: r, List.suffix_refl _, hm⟩
    · obtain ⟨v, hv, hm⟩ := ih h
      exact ⟨v, hv.trans (List.suffix_cons c r), hm⟩

theorem searchBracket_isSome_of_suffix {u l : Line} (hs : u <:+ l)
    (hb : (bracketAt u).isSome) : (searchBracket l).isSome := by
  induction l with
  | nil =>
    have : u = [] := List.eq_nil_of_suffix_nil hs
    subst this
    simp [bracketAt, expectChar] at hb
  | cons c r ih =>
    unfold searchBracket
    split
    · simp
    · rename_i hnone
      rcases List.suffix_cons_iff.mp hs with h1 | h1
      · subst h1
        rw [hnone] at hb
        simp at hb
      · exact ih h1

/-- The key totality fact: whenever the movement regex matches a line,
the bracket regex `P\s*\[([^\]]+)\]` also matches it, so the unguarded
`.group(1)` in the source never fails. -/
theorem bracket_of_movement {l n : Line} (h : searchMovement l = some n) :
    (searchBracket l).isSome := by
  obtain ⟨v, hv, hm⟩ := searchMovement_movementAt h
  obtain ⟨u, hu, hb⟩ := movementAt_bracket hm
  exact searchBracket_isSome_of_suffix (hu.trans hv) hb

/-! ### Totality and length preservation of the two passes -/

theorem pass1_total_len :
    ∀ (fuel : Nat) (lines : List Line), lines.length ≤ fuel →
    ∀ (inMN : Bool) (pm : PM),
    ∃ o : MNOut, pass1 inMN pm lines = some o ∧ o.out.length = lines.length := by
  intro fuel
  induction fuel with
  | zero =>
    intro lines h inMN pm
    have : lines = [] := List.length_eq_zero.mp (Nat.le_zero.mp h)
    subst this
    exact ⟨⟨[], pm, 0, 0⟩, rfl, rfl⟩
  | succ g ih =>
    intro lines hlen inMN pm
    match lines with
    | [] => exact ⟨⟨[], pm, 0, 0⟩, rfl, rfl⟩
    | l :: rest =>
      simp only [List.length_cons] at hlen
      unfold pass1
      by_cases hmn : pyStrip l = strMN
      · rw [if_pos hmn]
        obtain ⟨o, ho, hol⟩ := ih rest (by omega) true pm
        rw [ho]
        exact ⟨_, rfl, by simp [hol]⟩
      · rw [if_neg hmn]
        by_cases hact : (inMN && !(slashStart (pyStrip l) && !(pyStrip l == strMN))) = true
        · simp only [hact, if_true]
          match rest with
          | [] =>
            dsimp only
            obtain ⟨o, ho, hol⟩ := ih [] (by omega) true pm
            rw [ho]
            exact ⟨_, rfl, by simp [hol]⟩
          | next :: rest2 =>
            simp only [List.length_cons] at hlen
            dsimp only
            cases hsc : searchComment l with
            | none =>
              dsimp only
              obtain ⟨o, ho, hol⟩ := ih (next :: rest2) (by simp; omega) true pm
              rw [ho]
              exact ⟨_, rfl, by simp [hol]⟩
            | some spot =>
              dsimp only
              cases hsm : searchMovement next with
              | none =>
                dsimp only
                obtain ⟨o, ho, hol⟩ := ih (next :: rest2) (by simp; omega) true pm
                rw [ho]
                exact ⟨_, rfl, by simp [hol]⟩
              | some pnum =>
                dsimp only
                have hbr := bracket_of_movement hsm
                obtain ⟨content, hc⟩ := Option.isSome_iff_exists.mp hbr
                rw [hc]
                dsimp only
                by_cases hcol : ':' ∈ content
                · rw [if_pos hcol]
                  obtain ⟨o, ho, hol⟩ := ih rest2 (by omega) true pm
                  rw [ho]
                  exact ⟨_, rfl, by simp [hol]⟩
                · rw [if_neg hcol]
                  obtain ⟨o, ho, hol⟩ := ih rest2 (by omega) true (insertPM pm pnum spot)
                  rw [ho]
                  exact ⟨_, rfl, by simp [hol]⟩
        · simp only [Bool.not_eq_true] at hact
          simp only [hact, if_false]
          obtain ⟨o, ho, hol⟩ := ih rest (by omega) _ pm
          rw [ho]
          exact ⟨_, rfl, by simp [hol]⟩

theorem pass2_len (pm : PM) : ∀ (inPos : Bool) (lines : List Line),
    (pass2 pm inPos lines).out.length = lines.length := by
  intro inPos lines
  induction lines generalizing inPos with
  | nil => rfl
  | cons l rest ih => simp [pass2, ih]

/-- C3 (confirmed): for every input line sequence the Annotator returns a
result whose output has exactly as many lines as the input. -/
theorem C3_line_count (lines : List Line) :
    (process_ls_file lines).map (fun o => o.final_lines.length) = some lines.length := by
  obtain ⟨o, ho, hol⟩ := pass1_total_len lines.length lines (le_refl _) false []
  simp [process_ls_file, ho, pass2_len, hol]

/-- C5 (confirmed): the Annotator is total — it returns a result on every
input line sequence (so the `none` branch that models the unguarded
`.group(1)` crash is unreachable) — and, the underlying reason, whenever
the movement regex matches a line, the bracket regex matches it too. -/
theorem C5_total :
    (∀ lines : List Line, ∃ o : RunOut, process_ls_file lines = some o) ∧
    (∀ l n : Line, searchMovement l = some n → (searchBracket l).isSome) := by
  constructor
  · intro lines
    obtain ⟨o, ho, _⟩ := pass1_total_len lines.length lines (le_refl _) false []
    refine ⟨⟨o.out, o.pm, (pass2 o.pm false o.out).out, o.changes,
      (pass2 o.pm false o.out).changes, o.skipped, (pass2 o.pm false o.out).skipped⟩, ?_⟩
    unfold process_ls_file
    rw [ho]
    rfl
  · intro l n h
    exact bracket_of_movement h

/-- Witness for C5 at a concrete input: the totality conjunct at the
spec's movement line, and the bracket conjunct with its hypothesis
discharged by evaluation. -/
theorem C5_witness :
    (∃ o : RunOut, process_ls_file [strL "/MN"] = some o) ∧
    (searchBracket (strL "2:  L P[12] 100mm/sec CNT100")).isSome :=
  ⟨C5_total.1 [strL "/MN"],
   C5_total.2 (strL "2:  L P[12] 100mm/sec CNT100") (strL "12") rfl⟩

/-! ### The spec's worked example and other concrete inputs -/

/-- The spec's worked example input. -/
def exInput : List Line :=
  [strL "/MN", strL "1:  !T1-00042 ;", strL "2:  L P[12] 100mm/sec CNT100",
   strL "/POS", strL "P[12]\x7b"]

/-- What the code actually produces on the worked example (note the
identifier is the full captured digit run `00042`, zeros included). -/
def exOutput : List Line :=
  [strL "/MN", strL "1:  !T1-00042 ;", strL "2:  L P[12:00042] 100mm/sec CNT100",
   strL "/POS", strL "P[12:\"00042\"]\x7b"]

/-- The intermediate lines after pass 1 on the worked example. -/
def exMid : List Line :=
  [strL "/MN", strL "1:  !T1-00042 ;", strL "2:  L P[12:00042] 100mm/sec CNT100",
   strL "/POS", strL "P[12]\x7b"]

/-- The full result of the code on the worked example. -/
def exRun : RunOut :=
  ⟨exMid, [(strL "12", strL "00042")], exOutput, 1, 1, 0, 0⟩

/-- C1 (counterexample): on the spec's worked example the code rewrites
the movement line to `2:  L P[12:00042] 100mm/sec CNT100` and the `/POS`
line to `P[12:"00042"]\x7b` — the identifier keeps its leading zeros — so
the spec's claimed output lines `2:  L P[12:42] 100mm/sec CNT100` and
`P[12:"42"]\x7b` are not produced. -/
theorem C1_counterexample :
    process_ls_file exInput = some exRun ∧
    exRun.final_lines ≠
      [strL "/MN", strL "1:  !T1-00042 ;", strL "2:  L P[12:42] 100mm/sec CNT100",
       strL "/POS", strL "P[12:\"42\"]\x7b"] := by
  constructor
  · rfl
  · decide

/-- C1 (amended): on the worked example the movement line is rewritten to
`2:  L P[12:00042] 100mm/sec CNT100`, the `/POS` line to
`P[12:"00042"]\x7b`, and the stats are changed-MN = 1, changed-POS = 1,
skipped-MN = 0, skipped-POS = 0. -/
theorem C1_amended :
    (process_ls_file exInput).map
      (fun o => (o.final_lines, o.changes_mn, o.changes_pos, o.skipped_mn, o.skipped_pos)) =
    some (exOutput, 1, 1, 0, 0) := rfl

/-- An input showing that a second run of the annotator can still report
changes: the first run annotates `P[2]` (the movement regex finds `J P[2]`
first and the bracket check looks at `P[abc]`, which has no colon), and
the second run then annotates `P[3]` the same way. -/
def craftedInput : List Line :=
  [strL "/MN", strL "1: !T1-2 ;", strL "L P[abc] J P[2] J P[3]"]

/-- Output of the first run on `craftedInput`. -/
def craftedMid : List Line :=
  [strL "/MN", strL "1: !T1-2 ;", strL "L P[abc] J P[2:2] J P[3]"]

/-- C2 (counterexample): the idempotence claim fails twice over.  On
`craftedInput` the second run still reports changed-MN = 1 (so the
universal "second run changes nothing" part is false), and re-feeding the
worked example's output yields skipped-MN = 0 and skipped-POS = 0 (not 1
and 1 as claimed): an annotated movement line no longer matches the
movement regex, so the skip branch is never reached. -/
theorem C2_counterexample :
    (process_ls_file craftedInput).map (fun o => o.final_lines) = some craftedMid ∧
    (process_ls_file craftedMid).map (fun o => o.changes_mn) = some 1 ∧
    (process_ls_file exOutput).map (fun o => (o.skipped_mn, o.skipped_pos)) = some (0, 0) := by
  refine ⟨rfl, rfl, rfl⟩

/-- C2 (amended): re-feeding the worked example's output yields
changed-MN = 0, changed-POS = 0, skipped-MN = 0, skipped-POS = 0, and the
text is unchanged.  (No universal second-run guarantee holds: see the
counterexample.) -/
theorem C2_amended :
    (process_ls_file exOutput).map
      (fun o => (o.final_lines, o.changes_mn, o.changes_pos, o.skipped_mn, o.skipped_pos)) =
    some (exOutput, 0, 0, 0, 0) := rfl

/-- The worked example's comment line with the numeric label removed: it
still contains a colon, a `!T` token and text ending in hyphen, digits
and a semicolon. -/
def noLabelInput : List Line :=
  [strL "/MN", strL ":  !T1-00042 ;", strL "2:  L P[12] 100mm/sec CNT100"]

/-- C6 (counterexample): the comment regex `\d+\s*:\s*!\s*T.*-(\d+)\s*;`
requires one or more digits before the colon, so a label-less comment
line is not recognized: no pairing happens, nothing is changed. -/
theorem C6_counterexample :
    searchComment (strL ":  !T1-00042 ;") = none ∧
    (process_ls_file noLabelInput).map
      (fun o => (o.final_lines, o.changes_mn, o.skipped_mn)) =
    some (noLabelInput, 0, 0) := by
  refine ⟨rfl, rfl⟩

/-- An input whose last line matches the comment pattern and is also
consumed as the movement line of the preceding comment line's pair. -/
def lastCommentInput : List Line :=
  [strL "/MN", strL "1: !T1-2 ;", strL "2: !T2-3 ; L P[5]"]

/-- C9 (counterexample): a comment-matching last line is not always left
alone — here the last line `2: !T2-3 ; L P[5]` matches the comment
pattern, yet it is consumed as the movement member of the previous
line's pair: it is rewritten, a mapping entry is recorded, and
changed-MN is incremented. -/
theorem C9_counterexample :
    (searchComment (strL "2: !T2-3 ; L P[5]")).isSome = true ∧
    (process_ls_file lastCommentInput).map
      (fun o => (o.final_lines, o.point_modifications, o.changes_mn)) =
    some ([strL "/MN", strL "1: !T1-2 ;", strL "2: !T2-3 ; L P[5:2]"],
      [(strL "5", strL "2")], 1) := by
  refine ⟨rfl, rfl⟩

/-- C9 (amended): a comment-matching line that the scanner reaches as the
current line with no following line (it is the last line) is emitted
unchanged, records no mapping entry, and increments no counter. -/
theorem C9_amended (inMN : Bool) (pm : PM) (l : Line) (spot : Line)
    (h : searchComment l = some spot) :
    pass1 inMN pm [l] = some ⟨[l], pm, 0, 0⟩ := by
  unfold pass1
  by_cases hmn : pyStrip l = strMN
  · rw [if_pos hmn]
    rfl
  · rw [if_neg hmn]
    by_cases hact : (inMN && !(slashStart (pyStrip l) && !(pyStrip l == strMN))) = true
    · simp only [hact, if_true]
      rfl
    · simp only [Bool.not_eq_true] at hact
      simp only [hact, if_false]
      rfl

/-- Witness for C9 (amended) at the worked example's comment line. -/
theorem C9_witness :
    pass1 true [] [strL "1:  !T1-00042 ;"] =
      some ⟨[strL "1:  !T1-00042 ;"], [], 0, 0⟩ :=
  C9_amended true [] (strL "1:  !T1-00042 ;") (strL "00042") rfl

/-! ### Completeness of the comment recognizer for labelled lines -/

theorem dropWhile_takeWhile_append (p : Char → Bool) (a r : Line)
    (ha : ∀ c ∈ a, p c = true)
    (hr : ∀ x, r.head? = some x → p x = false) :
    (a ++ r).dropWhile p = r ∧ (a ++ r).takeWhile p = a := by
  induction a with
  | nil =>
    simp only [List.nil_append]
    constructor
    · cases r with
      | nil => rfl
      | cons c t =>
        have := hr c rfl
        simp [List.dropWhile_cons, this]
    · cases r with
      | nil => rfl
      | cons c t =>
        have := hr c rfl
        simp [List.takeWhile_cons, this]
  | cons c a2 ih =>
    have hc : p c = true := ha c (List.mem_cons_self c a2)
    have ih2 := ih (fun x hx => ha x (List.mem_cons_of_mem c hx))
    simp [List.dropWhile_cons, List.takeWhile_cons, hc, ih2.1, ih2.2]

theorem pySpace_not_digit {c : Char} (h : pySpace c = true) :
    c.isDigit = false := by
  simp only [pySpace, Bool.or_eq_true, decide_eq_true_eq] at h
  rcases h with
    ((((((((((rfl | rfl) | rfl) | rfl) | rfl) | rfl) | rfl) | rfl) | rfl) | rfl) | rfl) | rfl <;>
    decide

theorem expectSpacesChar_complete {x : Char} {ws r : Line}
    (hws : ∀ c ∈ ws, pySpace c = true) (hx : pySpace x = false) :
    expectSpacesChar x (ws ++ x :: r) = some r := by
  have h := (dropWhile_takeWhile_append pySpace ws (x :: r) hws
    (fun y hy => by
      simp at hy
      subst hy
      exact hx)).1
  unfold expectSpacesChar dropSpaces
  rw [h]
  simp [expectChar]

theorem starDash_complete {mid d : Line} (hmid : ∀ c ∈ mid, c ≠ '\n')
    (hd : (dashTail d).isSome) : (starDash (mid ++ d)).isSome := by
  induction mid with
  | nil =>
    simp only [List.nil_append]
    obtain ⟨ds, hds⟩ := Option.isSome_iff_exists.mp hd
    match d with
    | [] => simp [dashTail, expectChar] at hds
    | e :: d2 =>
      have he : e = '-' := by
        unfold dashTail at hds
        cases hec : expectChar '-' (e :: d2) with
        | none => rw [hec] at hds; simp at hds
        | some r => exact (List.cons.injEq _ _ _ _).mp (expectChar_eq hec) |>.1
      unfold starDash
      rw [if_neg (by rw [he]; decide)]
      cases hsd : starDash d2 with
      | some x => simp
      | none => simp [hds]
  | cons c m2 ih =>
    have hc : c ≠ '\n' := hmid c (List.mem_cons_self c m2)
    have ih2 := ih (fun x hx => hmid x (List.mem_cons_of_mem c hx))
    rw [List.cons_append]
    unfold starDash
    rw [if_neg hc]
    obtain ⟨v, hv⟩ := Option.isSome_iff_exists.mp ih2
    rw [hv]
    simp

theorem dashTail_complete {idd ws4 post : Line} (hidd : idd ≠ [])
    (hiddd : ∀ c ∈ idd, c.isDigit = true) (hw4 : ∀ c ∈ ws4, pySpace c = true) :
    (dashTail ('-' :: (idd ++ (ws4 ++ ';' :: post)))).isSome := by
  have hhead : ∀ x, (ws4 ++ ';' :: post).head? = some x → Char.isDigit x = false := by
    intro x hx
    cases ws4 with
    | nil =>
      simp only [List.nil_append, List.head?_cons, Option.some.injEq] at hx
      subst hx
      decide
    | cons w ws2 =>
      simp only [List.cons_append, List.head?_cons, Option.some.injEq] at hx
      subst hx
      exact pySpace_not_digit (hw4 w (List.mem_cons_self w ws2))
  have hspan := dropWhile_takeWhile_append Char.isDigit idd (ws4 ++ ';' :: post) hiddd hhead
  unfold dashTail
  have h1 : expectChar '-' ('-' :: (idd ++ (ws4 ++ ';' :: post))) =
      some (idd ++ (ws4 ++ ';' :: post)) := by simp [expectChar]
  rw [h1]
  dsimp only
  rw [hspan.2, hspan.1]
  rw [if_neg hidd]
  rw [expectSpacesChar_complete hw4 (by decide)]
  simp

theorem commentAt_complete (ds ws1 ws2 ws3 mid idd ws4 post : Line)
    (hds : ds ≠ []) (hdsd : ∀ c ∈ ds, c.isDigit = true)
    (hw1 : ∀ c ∈ ws1, pySpace c = true) (hw2 : ∀ c ∈ ws2, pySpace c = true)
    (hw3 : ∀ c ∈ ws3, pySpace c = true) (hw4 : ∀ c ∈ ws4, pySpace c = true)
    (hmid : ∀ c ∈ mid, c ≠ '\n') (hidd : idd ≠ [])
    (hiddd : ∀ c ∈ idd, c.isDigit = true) :
    (commentAt (ds ++ (ws1 ++ ':' :: (ws2 ++ '!' :: (ws3 ++ 'T' ::
      (mid ++ '-' :: (idd ++ (ws4 ++ ';' :: post)))))))).isSome := by
  have hhead : ∀ x, (ws1 ++ ':' :: (ws2 ++ '!' :: (ws3 ++ 'T' ::
      (mid ++ '-' :: (idd ++ (ws4 ++ ';' :: post)))))).head? = some x →
      Char.isDigit x = false := by
    intro x hx
    cases ws1 with
    | nil =>
      simp only [List.nil_append, List.head?_cons, Option.some.injEq] at hx
      subst hx
      decide
    | cons w ws0 =>
      simp only [List.cons_append, List.head?_cons, Option.some.injEq] at hx
      subst hx
      exact pySpace_not_digit (hw1 w (List.mem_cons_self w ws0))
  have hspan := dropWhile_takeWhile_append Char.isDigit ds
    (ws1 ++ ':' :: (ws2 ++ '!' :: (ws3 ++ 'T' ::
      (mid ++ '-' :: (idd ++ (ws4 ++ ';' :: post)))))) hdsd hhead
  unfold commentAt
  rw [hspan.2, hspan.1]
  rw [if_neg hds]
  rw [expectSpacesChar_complete hw1 (by decide)]
  dsimp only
  rw [expectSpacesChar_complete hw2 (by decide)]
  dsimp only
  rw [expectSpacesChar_complete hw3 (by decide)]
  dsimp only
  exact starDash_complete hmid (dashTail_complete hidd hiddd hw4)

theorem searchComment_isSome_of_suffix {u l : Line} (hs : u <:+ l)
    (hb : (commentAt u).isSome) : (searchComment l).isSome := by
  induction l with
  | nil =>
    have : u = [] := List.eq_nil_of_suffix_nil hs
    subst this
    simp [commentAt] at hb
  | cons c r ih =>
    unfold searchComment
    split
    · simp
    · rename_i hnone
      rcases List.suffix_cons_iff.mp hs with h1 | h1
      · subst h1
        rw [hnone] at hb
        simp at hb
      · exact ih h1

/-- C6 (amended): the comment recognizer accepts every line containing a
REQUIRED numeric label (one or more digits), optional whitespace, a
colon, `!`, a token starting with `T`, and free text (no newline) ending
in a hyphen, digits, optional whitespace and a semicolon; the label
cannot be dropped (see the counterexample). -/
theorem C6_amended (pre ds ws1 ws2 ws3 mid idd ws4 post : Line)
    (hds : ds ≠ []) (hdsd : ∀ c ∈ ds, c.isDigit = true)
    (hw1 : ∀ c ∈ ws1, pySpace c = true) (hw2 : ∀ c ∈ ws2, pySpace c = true)
    (hw3 : ∀ c ∈ ws3, pySpace c = true) (hw4 : ∀ c ∈ ws4, pySpace c = true)
    (hmid : ∀ c ∈ mid, c ≠ '\n') (hidd : idd ≠ [])
    (hiddd : ∀ c ∈ idd, c.isDigit = true) :
    (searchComment (pre ++ (ds ++ (ws1 ++ ':' :: (ws2 ++ '!' :: (ws3 ++ 'T' ::
      (mid ++ '-' :: (idd ++ (ws4 ++ ';' :: post))))))))).isSome := by
  have hc := commentAt_complete ds ws1 ws2 ws3 mid idd ws4 post
    hds hdsd hw1 hw2 hw3 hw4 hmid hidd hiddd
  exact searchComment_isSome_of_suffix (List.suffix_append pre _) hc

/-- Witness for C6 (amended): the worked example's comment line
`1:  !T1-00042 ;` decomposed as label `1`, colon, `!`, `T`, middle `1`,
hyphen, digits `00042`, space, semicolon. -/
theorem C6_witness :
    (searchComment (strL "1:  !T1-00042 ;")).isSome :=
  C6_amended [] (strL "1") [] (strL "  ") [] (strL "1") (strL "00042")
    (strL " ") [] (by decide) (by decide) (by decide) (by decide) (by decide)
    (by decide) (by decide) (by decide) (by decide)

/-! ### Frame lemmas: untouched lines pass through byte-identical -/

theorem pass1_frame :
    ∀ (fuel : Nat) (lines : List Line), lines.length ≤ fuel →
    ∀ (inMN : Bool) (pm : PM) (o : MNOut), pass1 inMN pm lines = some o →
    ∀ (j : Nat) (l : Line), lines[j]? = some l → searchMovement l = none →
    o.out[j]? = some l := by
  intro fuel
  induction fuel with
  | zero =>
    intro lines hl inMN pm o ho j l hj hm
    have : lines = [] := List.length_eq_zero.mp (Nat.le_zero.mp hl)
    subst this
    simp at hj
  | succ g ih =>
    intro lines hlen inMN pm o ho j l hj hm
    match lines with
    | [] => simp at hj
    | l0 :: rest =>
      simp only [List.length_cons] at hlen
      unfold pass1 at ho
      by_cases hmn : pyStrip l0 = strMN
      · rw [if_pos hmn] at ho
        obtain ⟨o1, ho1, hfo⟩ := Option.map_eq_some'.mp ho
        subst hfo
        match j with
        | 0 =>
          simp only [List.getElem?_cons_zero, Option.some.injEq] at hj ⊢
          exact hj
        | j1 + 1 =>
          simp only [List.getElem?_cons_succ] at hj ⊢
          exact ih rest (by omega) true pm o1 ho1 j1 l hj hm
      · rw [if_neg hmn] at ho
        by_cases hact : (inMN && !(slashStart (pyStrip l0) && !(pyStrip l0 == strMN))) = true
        · simp only [hact, if_true] at ho
          match rest with
          | [] =>
            dsimp only at ho
            obtain ⟨o1, ho1, hfo⟩ := Option.map_eq_some'.mp ho
            subst hfo
            match j with
            | 0 =>
              simp only [List.getElem?_cons_zero, Option.some.injEq] at hj ⊢
              exact hj
            | j1 + 1 =>
              simp only [List.getElem?_cons_succ] at hj ⊢
              exact ih [] (by omega) true pm o1 ho1 j1 l hj hm
          | next :: rest2 =>
            simp only [List.length_cons] at hlen
            dsimp only at ho
            cases hsc : searchComment l0 with
            | none =>
              rw [hsc] at ho
              dsimp only at ho
              obtain ⟨o1, ho1, hfo⟩ := Option.map_eq_some'.mp ho
              subst hfo
              match j with
              | 0 =>
                simp only [List.getElem?_cons_zero, Option.some.injEq] at hj ⊢
                exact hj
              | j1 + 1 =>
                simp only [List.getElem?_cons_succ] at hj ⊢
                exact ih (next :: rest2) (by simp; omega) true pm o1 ho1 j1 l hj hm
            | some spot =>
              rw [hsc] at ho
              dsimp only at ho
              cases hsm : searchMovement next with
              | none =>
                rw [hsm] at ho
                dsimp only at ho
                obtain ⟨o1, ho1, hfo⟩ := Option.map_eq_some'.mp ho
                subst hfo
                match j with
                | 0 =>
                  simp only [List.getElem?_cons_zero, Option.some.injEq] at hj ⊢
                  exact hj
                | j1 + 1 =>
                  simp only [List.getElem?_cons_succ] at hj ⊢
                  exact ih (next :: rest2) (by simp; omega) true pm o1 ho1 j1 l hj hm
              | some pnum =>
                rw [hsm] at ho
                dsimp only at ho
                cases hbr : searchBracket next with
                | none => rw [hbr] at ho; simp at ho
                | some content =>
                  rw [hbr] at ho
                  dsimp only at ho
                  by_cases hcol : ':' ∈ content
                  · rw [if_pos hcol] at ho
                    obtain ⟨o1, ho1, hfo⟩ := Option.map_eq_some'.mp ho
                    subst hfo
                    match j with
                    | 0 =>
                      simp only [List.getElem?_cons_zero, Option.some.injEq] at hj ⊢
                      exact hj
                    | 1 =>
                      simp only [List.getElem?_cons_succ, List.getElem?_cons_zero,
                        Option.some.injEq] at hj ⊢
                      exact hj
                    | j1 + 2 =>
                      simp only [List.getElem?_cons_succ] at hj ⊢
                      exact ih rest2 (by omega) true pm o1 ho1 j1 l hj hm
                  · rw [if_neg hcol] at ho
                    obtain ⟨o1, ho1, hfo⟩ := Option.map_eq_some'.mp ho
                    subst hfo
                    match j with
                    | 0 =>
                      simp only [List.getElem?_cons_zero, Option.some.injEq] at hj ⊢
                      exact hj
                    | 1 =>
                      simp only [List.getElem?_cons_succ, List.getElem?_cons_zero,
                        Option.some.injEq] at hj
                      subst hj
                      rw [hm] at hsm
                      exact absurd hsm (by simp)
                    | j1 + 2 =>
                      simp only [List.getElem?_cons_succ] at hj ⊢
                      exact ih rest2 (by omega) true (insertPM pm pnum spot) o1 ho1 j1 l hj hm
        · simp only [Bool.not_eq_true] at hact
          simp only [hact, if_false] at ho
          obtain ⟨o1, ho1, hfo⟩ := Option.map_eq_some'.mp ho
          subst hfo
          match j with
          | 0 =>
            simp only [List.getElem?_cons_zero, Option.some.injEq] at hj ⊢
            exact hj
          | j1 + 1 =>
            simp only [List.getElem?_cons_succ] at hj ⊢
            exact ih rest (by omega) false pm o1 ho1 j1 l hj hm

theorem pass2step_emit_unchanged (pm : PM) (inPos : Bool) (l : Line)
    (hf : ∀ p ∈ pm, posSearch p.1 l = false) : (pass2step pm inPos l).2.1 = l := by
  unfold pass2step
  split
  · rfl
  · dsimp only
    split
    · have hnone : pm.find? (fun p => posSearch p.1 l) = none := by
        rw [List.find?_eq_none]
        intro p hp
        simp [hf p hp]
      rw [hnone]
    · rfl

theorem pass2_frame (pm : PM) : ∀ (lines : List Line) (inPos : Bool) (j : Nat) (l : Line),
    lines[j]? = some l → (∀ p ∈ pm, posSearch p.1 l = false) →
    (pass2 pm inPos lines).out[j]? = some l := by
  intro lines
  induction lines with
  | nil =>
    intro inPos j l hl _
    simp at hl
  | cons l0 rest ih =>
    intro inPos j l hl hf
    match j with
    | 0 =>
      simp only [List.getElem?_cons_zero, Option.some.injEq] at hl
      subst hl
      show (pass2 pm inPos (l0 :: rest)).out[0]? = some l0
      simp [pass2, pass2step_emit_unchanged pm inPos l0 hf]
    | j1 + 1 =>
      simp only [List.getElem?_cons_succ] at hl
      show (pass2 pm inPos (l0 :: rest)).out[j1 + 1]? = some l
      simp only [pass2, List.getElem?_cons_succ]
      exact ih _ j1 l hl hf

/-- C4 (confirmed): a line that matches neither the comment pattern nor
the movement pattern of the `/MN` pass, nor any mapping entry's
`P[<index>]\x7b` pattern of the `/POS` pass, is emitted byte-identical at
the same position, whatever section it is in. -/
theorem C4_frame (lines : List Line) (o : RunOut)
    (ho : process_ls_file lines = some o) (j : Nat) (l : Line)
    (hl : lines[j]? = some l)
    (_hcm : searchComment l = none)
    (hm : searchMovement l = none)
    (hp : ∀ p ∈ o.point_modifications, posSearch p.1 l = false) :
    o.final_lines[j]? = some l := by
  unfold process_ls_file at ho
  cases h1 : pass1 false [] lines with
  | none => rw [h1] at ho; simp at ho
  | some o1 =>
    rw [h1] at ho
    dsimp only at ho
    obtain ⟨o2, ho2, hfo⟩ := Option.map_eq_some'.mp ho
    cases ho2
    subst hfo
    have hmid : o1.out[j]? = some l :=
      pass1_frame lines.length lines (le_refl _) false [] o1 h1 j l hl hm
    exact pass2_frame o1.pm o1.out false j l hmid hp

/-- Witness for C4 at the worked example: the `/MN` marker line passes
through unchanged at position 0. -/
theorem C4_witness : exRun.final_lines[0]? = some (strL "/MN") :=
  C4_frame exInput exRun rfl 0 (strL "/MN") rfl rfl rfl (by decide)

/-! ### Mapping consistency of the `/POS` pass -/

/-- Python dict read `pm[k]`: the value stored at key `k`. -/
def pmLookup : PM → Line → Option Line
  | [], _ => none
  | p :: t, k => if p.1 = k then some p.2 else pmLookup t k

theorem insertPM_keys_mem {pm : PM} {k v x : Line}
    (h : x ∈ (insertPM pm k v).map Prod.fst) :
    x ∈ pm.map Prod.fst ∨ x = k := by
  induction pm with
  | nil =>
    simp [insertPM] at h
    exact Or.inr h
  | cons p t ih =>
    unfold insertPM at h
    by_cases hp : p.1 = k
    · rw [if_pos hp] at h
      simp only [List.map_cons, List.mem_cons] at h
      rcases h with h | h
      · exact Or.inr h
      · exact Or.inl (by simp only [List.map_cons, List.mem_cons]; exact Or.inr h)
    · rw [if_neg hp] at h
      simp only [List.map_cons, List.mem_cons] at h
      rcases h with h | h
      · exact Or.inl (by simp only [List.map_cons, List.mem_cons]; exact Or.inl h)
      · rcases ih h with h2 | h2
        · exact Or.inl (by simp only [List.map_cons, List.mem_cons]; exact Or.inr h2)
        · exact Or.inr h2

theorem insertPM_keys_nodup {pm : PM} {k v : Line}
    (h : (pm.map Prod.fst).Nodup) : ((insertPM pm k v).map Prod.fst).Nodup := by
  induction pm with
  | nil => simp [insertPM]
  | cons p t ih =>
    unfold insertPM
    by_cases hp : p.1 = k
    · rw [if_pos hp]
      simp only [List.map_cons, List.nodup_cons] at h ⊢
      rw [← hp]
      exact h
    · rw [if_neg hp]
      simp only [List.map_cons, List.nodup_cons] at h ⊢
      refine ⟨?_, ih h.2⟩
      intro hmem
      rcases insertPM_keys_mem hmem with h2 | h2
      · exact h.1 h2
      · exact hp h2

theorem pmLookup_of_mem {pm : PM} {k v : Line}
    (hnd : (pm.map Prod.fst).Nodup) (h : (k, v) ∈ pm) :
    pmLookup pm k = some v := by
  induction pm with
  | nil => simp at h
  | cons p t ih =>
    simp only [List.map_cons, List.nodup_cons] at hnd
    unfold pmLookup
    by_cases hp : p.1 = k
    · rw [if_pos hp]
      rcases List.mem_cons.mp h with h1 | h1
      · rw [← h1]
      · exfalso
        apply hnd.1
        rw [hp]
        exact List.mem_map.mpr ⟨(k, v), h1, rfl⟩
    · rw [if_neg hp]
      rcases List.mem_cons.mp h with h1 | h1
      · exfalso
        apply hp
        rw [← h1]
      · exact ih hnd.2 h1

theorem pass1_keys_nodup :
    ∀ (fuel : Nat) (lines : List Line), lines.length ≤ fuel →
    ∀ (inMN : Bool) (pm : PM) (o : MNOut), pass1 inMN pm lines = some o →
    (pm.map Prod.fst).Nodup → (o.pm.map Prod.fst).Nodup := by
  intro fuel
  induction fuel with
  | zero =>
    intro lines hl inMN pm o ho hnd
    have : lines = [] := List.length_eq_zero.mp (Nat.le_zero.mp hl)
    subst this
    cases ho
    exact hnd
  | succ g ih =>
    intro lines hlen inMN pm o ho hnd
    match lines with
    | [] =>
      cases ho
      exact hnd
    | l0 :: rest =>
      simp only [List.length_cons] at hlen
      unfold pass1 at ho
      by_cases hmn : pyStrip l0 = strMN
      · rw [if_pos hmn] at ho
        obtain ⟨o1, ho1, hfo⟩ := Option.map_eq_some'.mp ho
        subst hfo
        exact ih rest (by omega) true pm o1 ho1 hnd
      · rw [if_neg hmn] at ho
        by_cases hact : (inMN && !(slashStart (pyStrip l0) && !(pyStrip l0 == strMN))) = true
        · simp only [hact, if_true] at ho
          match rest with
          | [] =>
            dsimp only at ho
            obtain ⟨o1, ho1, hfo⟩ := Option.map_eq_some'.mp ho
            subst hfo
            exact ih [] (by omega) true pm o1 ho1 hnd
          | next :: rest2 =>
            simp only [List.length_cons] at hlen
            dsimp only at ho
            cases hsc : searchComment l0 with
            | none =>
              rw [hsc] at ho
              dsimp only at ho
              obtain ⟨o1, ho1, hfo⟩ := Option.map_eq_some'.mp ho
              subst hfo
              exact ih (next :: rest2) (by simp; omega) true pm o1 ho1 hnd
            | some spot =>
              rw [hsc] at ho
              dsimp only at ho
              cases hsm : searchMovement next with
              | none =>
                rw [hsm] at ho
                dsimp only at ho
                obtain ⟨o1, ho1, hfo⟩ := Option.map_eq_some'.mp ho
                subst hfo
                exact ih (next :: rest2) (by simp; omega) true pm o1 ho1 hnd
              | some pnum =>
                rw [hsm] at ho
                dsimp only at ho
                cases hbr : searchBracket next with
                | none =>
                  rw [hbr] at ho
                  simp at ho
                | some content =>
                  rw [hbr] at ho
                  dsimp only at ho
                  by_cases hcol : ':' ∈ content
                  · rw [if_pos hcol] at ho
                    obtain ⟨o1, ho1, hfo⟩ := Option.map_eq_some'.mp ho
                    subst hfo
                    exact ih rest2 (by omega) true pm o1 ho1 hnd
                  · rw [if_neg hcol] at ho
                    obtain ⟨o1, ho1, hfo⟩ := Option.map_eq_some'.mp ho
                    subst hfo
                    exact ih rest2 (by omega) true (insertPM pm pnum spot) o1 ho1
                      (insertPM_keys_nodup hnd)
        · simp only [Bool.not_eq_true] at hact
          simp only [hact, if_false] at ho
          obtain ⟨o1, ho1, hfo⟩ := Option.map_eq_some'.mp ho
          subst hfo
          exact ih rest (by omega) false pm o1 ho1 hnd

theorem pass2step_changed (pm : PM) (inPos : Bool) (l : Line)
    (hne : (pass2step pm inPos l).2.1 ≠ l) :
    ∃ p, pm.find? (fun q => posSearch q.1 l) = some p ∧
      (pass2step pm inPos l).2.1 = subPOS p.1 p.2 l := by
  unfold pass2step at hne ⊢
  by_cases h1 : pyStrip l = strPOS
  · rw [if_pos h1] at hne
    exact absurd rfl hne
  · rw [if_neg h1] at hne ⊢
    dsimp only at hne ⊢
    by_cases h2 : (inPos && !(slashStart (pyStrip l) && !(pyStrip l == strPOS))) = true
    · rw [if_pos h2] at hne ⊢
      cases hf : pm.find? (fun q => posSearch q.1 l) with
      | none =>
        rw [hf] at hne
        exact absurd rfl hne
      | some p =>
        rw [hf] at hne
        dsimp only at hne ⊢
        by_cases hsk : posSkip l = true
        · rw [if_pos hsk] at hne
          exact absurd rfl hne
        · rw [if_neg hsk] at hne ⊢
          exact ⟨p, rfl, rfl⟩
    · rw [if_neg h2] at hne
      exact absurd rfl hne

theorem pass2_changed (pm : PM) :
    ∀ (lines : List Line) (inPos : Bool) (j : Nat) (lmid lout : Line),
    lines[j]? = some lmid → (pass2 pm inPos lines).out[j]? = some lout →
    lout ≠ lmid →
    ∃ p, pm.find? (fun q => posSearch q.1 lmid) = some p ∧
      lout = subPOS p.1 p.2 lmid := by
  intro lines
  induction lines with
  | nil =>
    intro inPos j lmid lout hmid _ _
    simp at hmid
  | cons l0 rest ih =>
    intro inPos j lmid lout hmid hout hne
    match j with
    | 0 =>
      simp only [List.getElem?_cons_zero, Option.some.injEq] at hmid
      subst hmid
      simp only [pass2, List.getElem?_cons_zero, Option.some.injEq] at hout
      subst hout
      obtain ⟨p, hp, he⟩ := pass2step_changed pm inPos l0 hne
      exact ⟨p, hp, he⟩
    | j1 + 1 =>
      simp only [List.getElem?_cons_succ] at hmid
      simp only [pass2, List.getElem?_cons_succ] at hout
      exact ih _ j1 lmid lout hmid hout hne

/-- C7 (confirmed): every `/POS` line that pass 2 changes is rewritten by
`subPOS n id` where `(n, id)` is an entry of the spot mapping built by
the `/MN` pass of the same run, and `id` is exactly the value the mapping
stores for point index `n`. -/
theorem C7_mapping (lines : List Line) (o : RunOut)
    (ho : process_ls_file lines = some o) (j : Nat) (lmid lout : Line)
    (hmid : o.modified_lines[j]? = some lmid)
    (hout : o.final_lines[j]? = some lout) (hne : lout ≠ lmid) :
    ∃ n id, (n, id) ∈ o.point_modifications ∧
      pmLookup o.point_modifications n = some id ∧
      lout = subPOS n id lmid := by
  unfold process_ls_file at ho
  cases h1 : pass1 false [] lines with
  | none => rw [h1] at ho; simp at ho
  | some o1 =>
    rw [h1] at ho
    dsimp only at ho
    obtain ⟨o2, ho2, hfo⟩ := Option.map_eq_some'.mp ho
    cases ho2
    subst hfo
    dsimp only at hmid hout ⊢
    obtain ⟨p, hp, he⟩ := pass2_changed o1.pm o1.out false j lmid lout hmid hout hne
    have hmem : p ∈ o1.pm := List.mem_of_find?_eq_some hp
    have hnd : (o1.pm.map Prod.fst).Nodup :=
      pass1_keys_nodup lines.length lines (le_refl _) false [] o1 h1 (by simp)
    exact ⟨p.1, p.2, hmem, pmLookup_of_mem hnd hmem, he⟩

/-- Witness for C7 at the worked example: the changed `/POS` line embeds
the identifier recorded for point index 12. -/
theorem C7_witness :
    ∃ n id, (n, id) ∈ exRun.point_modifications ∧
      pmLookup exRun.point_modifications n = some id ∧
      strL "P[12:\"00042\"]\x7b" = subPOS n id (strL "P[12]\x7b") :=
  C7_mapping exInput exRun rfl 4 (strL "P[12]\x7b") (strL "P[12:\"00042\"]\x7b")
    rfl rfl (by decide)

/-! ### First-match-wins in the `/POS` pass -/

theorem find?_first_entry {pre post : PM} {n id l : Line}
    (hpre : ∀ p ∈ pre, posSearch p.1 l = false) (hn : posSearch n l = true) :
    (pre ++ (n, id) :: post).find? (fun p => posSearch p.1 l) = some (n, id) := by
  induction pre with
  | nil => exact List.find?_cons_of_pos post hn
  | cons q t ih =>
    rw [List.cons_append]
    rw [List.find?_cons_of_neg _ (by simp [hpre q (List.mem_cons_self q t)])]
    exact ih (fun p hp => hpre p (List.mem_cons_of_mem q hp))

/-- C8 (confirmed): when a non-marker line of an active `/POS` section is
matched by some mapping pair, the pair at the earliest insertion position
whose pattern matches is the only one applied: the emitted line (and the
changed/skipped increment) is computed from that pair alone, whatever
pairs come after it. -/
theorem C8_first_match (pre post : PM) (n id l : Line)
    (hmark : pyStrip l ≠ strPOS) (hsl : slashStart (pyStrip l) = false)
    (hpre : ∀ p ∈ pre, posSearch p.1 l = false) (hn : posSearch n l = true) :
    pass2step (pre ++ (n, id) :: post) true l =
      (true, (if posSkip l then l else subPOS n id l), !posSkip l, posSkip l) := by
  unfold pass2step
  rw [if_neg hmark]
  have hact : (true && !(slashStart (pyStrip l) && !(pyStrip l == strPOS))) = true := by
    simp [hsl]
  rw [if_pos hact]
  rw [find?_first_entry hpre hn]
  dsimp only
  by_cases hsk : posSkip l = true
  · rw [if_pos hsk, if_pos hsk, hsk, hact]
    rfl
  · rw [if_neg hsk, if_neg hsk, hact]
    simp only [Bool.not_eq_true] at hsk
    rw [hsk]
    rfl

/-- Witness for C8: with mapping entries 7, 12, 9 in insertion order and
the `/POS` line `P[12]\x7b`, the middle pair is the first match and its
substitution is applied, ignoring the later pair. -/
theorem C8_witness :
    pass2step [(strL "7", strL "1"), (strL "12", strL "00042"), (strL "9", strL "2")]
      true (strL "P[12]\x7b") =
      (true, (if posSkip (strL "P[12]\x7b") then strL "P[12]\x7b"
        else subPOS (strL "12") (strL "00042") (strL "P[12]\x7b")),
        !posSkip (strL "P[12]\x7b"), posSkip (strL "P[12]\x7b")) :=
  C8_first_match [(strL "7", strL "1")] [(strL "9", strL "2")]
    (strL "12") (strL "00042") (strL "P[12]\x7b")
    (by decide) (by decide) (by decide) (by decide)

/-! ### The substitutions replace every occurrence -/

theorem isDigit_not_pySpace {c : Char} (h : c.isDigit = true) : pySpace c = false := by
  by_contra hb
  simp only [Bool.not_eq_false] at hb
  rw [pySpace_not_digit hb] at h
  exact absurd h (by simp)

theorem dropSpaces_of_head {c : Char} {r : Line} (h : pySpace c = false) :
    dropSpaces (c :: r) = c :: r := by
  simp [dropSpaces, List.dropWhile_cons, h]

theorem mnPatAt_none_of_head {num : Line} {c : Char} {r : Line} (hc : c ≠ 'P') :
    mnPatAt num (c :: r) = none := by
  unfold mnPatAt
  simp [expectChar, hc]

theorem posPatAt_none_of_head {num : Line} {c : Char} {r : Line} (hc : c ≠ 'P') :
    posPatAt num (c :: r) = none := by
  unfold posPatAt
  rw [mnPatAt_none_of_head hc]

theorem mnPatAt_token {num : Line} (hnum : num ≠ []) (hd : ∀ c ∈ num, c.isDigit = true)
    (rest : Line) : mnPatAt num ('P' :: '[' :: (num ++ ']' :: rest)) = some rest := by
  unfold mnPatAt
  have h1 : expectChar 'P' ('P' :: '[' :: (num ++ ']' :: rest)) =
      some ('[' :: (num ++ ']' :: rest)) := by simp [expectChar]
  rw [h1]
  dsimp only
  have h2 : expectSpacesChar '[' ('[' :: (num ++ ']' :: rest)) =
      some (num ++ ']' :: rest) := by
    unfold expectSpacesChar
    rw [dropSpaces_of_head (by decide)]
    simp [expectChar]
  rw [h2]
  dsimp only
  have h3 : dropSpaces (num ++ ']' :: rest) = num ++ ']' :: rest := by
    match num with
    | [] => exact absurd rfl hnum
    | n0 :: num2 =>
      rw [List.cons_append]
      exact dropSpaces_of_head (isDigit_not_pySpace (hd n0 (List.mem_cons_self _ _)))
  rw [h3]
  rw [List.take_left, List.drop_left]
  rw [if_pos rfl]
  unfold expectSpacesChar
  rw [dropSpaces_of_head (by decide)]
  simp [expectChar]

theorem posPatAt_token {num : Line} (hnum : num ≠ []) (hd : ∀ c ∈ num, c.isDigit = true)
    (rest : Line) :
    posPatAt num ('P' :: '[' :: (num ++ ']' :: '\x7b' :: rest)) = some rest := by
  unfold posPatAt
  rw [mnPatAt_token hnum hd ('\x7b' :: rest)]
  dsimp only
  unfold expectSpacesChar
  rw [dropSpaces_of_head (by decide)]
  simp [expectChar]

theorem subMN_no_P {num id : Line} : ∀ l : Line, 'P' ∉ l → subMN num id l = l := by
  intro l
  induction l with
  | nil => intro _; rfl
  | cons c r ih =>
    intro h
    have hc : c ≠ 'P' := by
      intro he
      subst he
      exact h (List.mem_cons_self _ _)
    rw [subMN_cons_none id (mnPatAt_none_of_head hc)]
    rw [ih (fun hm => h (List.mem_cons_of_mem c hm))]

theorem subPOS_no_P {num id : Line} : ∀ l : Line, 'P' ∉ l → subPOS num id l = l := by
  intro l
  induction l with
  | nil => intro _; rfl
  | cons c r ih =>
    intro h
    have hc : c ≠ 'P' := by
      intro he
      subst he
      exact h (List.mem_cons_self _ _)
    rw [subPOS_cons_none id (posPatAt_none_of_head hc)]
    rw [ih (fun hm => h (List.mem_cons_of_mem c hm))]

theorem subMN_step_over {num id : Line} (hnum : num ≠ [])
    (hd : ∀ c ∈ num, c.isDigit = true) :
    ∀ (u rest : Line), 'P' ∉ u →
    subMN num id (u ++ ('P' :: '[' :: (num ++ ']' :: rest))) =
      u ++ (mnRepl num id ++ subMN num id rest) := by
  intro u
  induction u with
  | nil =>
    intro rest _
    simp only [List.nil_append]
    exact subMN_cons_some id (mnPatAt_token hnum hd rest)
  | cons c u2 ih =>
    intro rest h
    have hc : c ≠ 'P' := by
      intro he
      subst he
      exact h (List.mem_cons_self _ _)
    rw [List.cons_append]
    rw [subMN_cons_none id (mnPatAt_none_of_head hc)]
    rw [ih rest (fun hm => h (List.mem_cons_of_mem c hm))]
    rfl

theorem subPOS_step_over {num id : Line} (hnum : num ≠ [])
    (hd : ∀ c ∈ num, c.isDigit = true) :
    ∀ (u rest : Line), 'P' ∉ u →
    subPOS num id (u ++ ('P' :: '[' :: (num ++ ']' :: '\x7b' :: rest))) =
      u ++ (posRepl num id ++ subPOS num id rest) := by
  intro u
  induction u with
  | nil =>
    intro rest _
    simp only [List.nil_append]
    exact subPOS_cons_some id (posPatAt_token hnum hd rest)
  | cons c u2 ih =>
    intro rest h
    have hc : c ≠ 'P' := by
      intro he
      subst he
      exact h (List.mem_cons_self _ _)
    rw [List.cons_append]
    rw [subPOS_cons_none id (posPatAt_none_of_head hc)]
    rw [ih rest (fun hm => h (List.mem_cons_of_mem c hm))]
    rfl

/-- C10 (confirmed): the substitutions replace every occurrence on the
line, not only the first: with two canonical `P[<num>]` tokens (resp.
`P[<num>]\x7b` tokens) separated by `P`-free text, both are rewritten to
the annotated form. -/
theorem C10_sub_all (num id u v w : Line)
    (hu : 'P' ∉ u) (hv : 'P' ∉ v) (hw : 'P' ∉ w)
    (hnum : num ≠ []) (hd : ∀ c ∈ num, c.isDigit = true) :
    subMN num id (u ++ ('P' :: '[' :: (num ++ ']' ::
        (v ++ ('P' :: '[' :: (num ++ ']' :: w)))))) =
      u ++ (mnRepl num id ++ (v ++ (mnRepl num id ++ w))) ∧
    subPOS num id (u ++ ('P' :: '[' :: (num ++ ']' :: '\x7b' ::
        (v ++ ('P' :: '[' :: (num ++ ']' :: '\x7b' :: w)))))) =
      u ++ (posRepl num id ++ (v ++ (posRepl num id ++ w))) := by
  constructor
  · rw [subMN_step_over hnum hd u _ hu]
    rw [subMN_step_over hnum hd v w hv]
    rw [subMN_no_P w hw]
  · rw [subPOS_step_over hnum hd u _ hu]
    rw [subPOS_step_over hnum hd v w hv]
    rw [subPOS_no_P w hw]

/-- Witness for C10 at concrete text: both `P[12]` tokens (and both
`P[12]\x7b` tokens) in one line are annotated. -/
theorem C10_witness :
    subMN (strL "12") (strL "7") (strL "x " ++ ('P' :: '[' :: (strL "12" ++ ']' ::
        (strL " y " ++ ('P' :: '[' :: (strL "12" ++ ']' :: strL " z")))))) =
      strL "x " ++ (mnRepl (strL "12") (strL "7") ++ (strL " y " ++
        (mnRepl (strL "12") (strL "7") ++ strL " z"))) ∧
    subPOS (strL "12") (strL "7") (strL "x " ++ ('P' :: '[' :: (strL "12" ++ ']' :: '\x7b' ::
        (strL " y " ++ ('P' :: '[' :: (strL "12" ++ ']' :: '\x7b' :: strL " z")))))) =
      strL "x " ++ (posRepl (strL "12") (strL "7") ++ (strL " y " ++
        (posRepl (strL "12") (strL "7") ++ strL " z"))) :=
  C10_sub_all (strL "12") (strL "7") (strL "x ") (strL " y ") (strL " z")
    (by decide) (by decide) (by decide) (by decide) (by decide)

end FanucLs
